import Mathlib

/-!
Verification of the filter-expression engine of `broker/helpers.py`:
`flatten_dict`, `classify_filter`, `inventory_filter`, `results_filter`.

Python strings are modelled as `List Char` (`Str`), Python values as the
inductive `Value` (ints, strings, lists, dicts), and fallible Python code
as `Except PyErr`, where `PyErr` names the exception class the source
would raise at that point.  All definitions are transliterated from the
source, except for a few spec-side definitions used to compare code
behaviour with the specified behaviour (`specCollect`, `invKeep`) and the
statement-side hypothesis bundles (`ftOkFor`, `invHostOk`), whose doc
comments say so.
-/

namespace Broker

/-- Python strings are finite sequences of characters. -/
abbrev Str := List Char

/-- The single-quote character, written via its code point. -/
def sqChar : Char := Char.ofNat 39

/-- The double-quote character. -/
def dqChar : Char := Char.ofNat 34

/-- The backslash character. -/
def bsChar : Char := Char.ofNat 92

/-- The newline character. -/
def nlChar : Char := Char.ofNat 10

/-- The carriage-return character. -/
def crChar : Char := Char.ofNat 13

/-- The horizontal-tab character. -/
def tabChar : Char := Char.ofNat 9

/-- The NUL character. -/
def nulChar : Char := Char.ofNat 0

/-- Whether `p` is a prefix of `s` (Python `s.startswith(p)` reads
`strStarts p s`). -/
def strStarts : Str → Str → Bool
  | [], _ => true
  | _ :: _, [] => false
  | p :: ps, c :: s => p == c && strStarts ps s

/-- First occurrence of `sep` in `s`: `some (pre, post)` with
`s = pre ++ sep ++ post` at the leftmost occurrence, `none` if `sep` does
not occur.  This is the search primitive behind Python `in` and
`str.split`. -/
def splitFirst (sep : Str) : Str → Option (Str × Str)
  | [] => if strStarts sep [] then some ([], []) else none
  | c :: rest =>
    if strStarts sep (c :: rest) then some ([], (c :: rest).drop sep.length)
    else
      match splitFirst sep rest with
      | some (pre, post) => some (c :: pre, post)
      | none => none

/-- Python substring test `sub in s`. -/
def strContains (s sub : Str) : Bool := (splitFirst sub s).isSome

/-- Fuelled worker for `pySplit`; fuel `s.length + 1` always suffices for a
non-empty separator. -/
def pySplitAux : Nat → Str → Str → List Str
  | 0, _, s => [s]
  | fuel + 1, sep, s =>
    match splitFirst sep s with
    | none => [s]
    | some (pre, post) => pre :: pySplitAux fuel sep post

/-- Python `s.split(sep)` for a non-empty separator: the pieces of `s`
between consecutive non-overlapping occurrences of `sep`, scanned from the
left. -/
def pySplit (sep s : Str) : List Str := pySplitAux (s.length + 1) sep s

/-- Python values flowing through the helpers: integers, strings, lists
and dicts (the scalars exercised by the filtering code are ints and
strings; dicts keep their insertion order as Python dicts do). -/
inductive Value where
  | int (n : Int)
  | str (s : Str)
  | list (xs : List Value)
  | dict (kvs : List (Str × Value))

/-- Exception classes raised by the modelled code paths. -/
inductive PyErr where
  | attributeError
  | valueError
  | syntaxError
  | indexError
  deriving DecidableEq

/-- One hex digit, lower case, as Python's `\xhh` escapes print it. -/
def hexDigit (n : Nat) : Char :=
  if n < 10 then Char.ofNat (48 + n) else Char.ofNat (87 + n)

/-- Escape one character of a string being `repr`-ed with quote character
`q`, following CPython: backslash and the quote are backslash-escaped,
newline / carriage return / tab print as `\n` / `\r` / `\t`, other control
characters (and DEL) print as `\xhh`, anything else prints as itself. -/
def escapeChar (q c : Char) : Str :=
  if c = bsChar then [bsChar, bsChar]
  else if c = q then [bsChar, q]
  else if c = nlChar then [bsChar, 'n']
  else if c = crChar then [bsChar, 'r']
  else if c = tabChar then [bsChar, 't']
  else if c.toNat < 32 ∨ c.toNat = 127 then
    [bsChar, 'x', hexDigit (c.toNat / 16), hexDigit (c.toNat % 16)]
  else [c]

/-- Python `repr` of a string: single-quoted, switching to double quotes
when the string contains a single quote but no double quote.  (Printable
non-ASCII is kept as-is, as in Python 3; exotic unprintable non-ASCII is
not escaped here — no value in this development contains any.) -/
def pyReprStr (s : Str) : Str :=
  let q := if s.contains sqChar && !(s.contains dqChar) then dqChar else sqChar
  q :: (s.map (escapeChar q)).flatten ++ [q]

mutual

/-- Python `repr` of a value: ints in decimal, strings quoted via
`pyReprStr`, lists bracketed with `repr`-ed elements joined by a comma and
a space, dicts braced with `repr`-ed key-value pairs. -/
def pyRepr : Value → Str
  | .int n => (toString n).toList
  | .str s => pyReprStr s
  | .list xs => '[' :: List.intercalate [',', ' '] (pyReprList xs) ++ [']']
  | .dict kvs => '{' :: List.intercalate [',', ' '] (pyReprKVs kvs) ++ ['}']

/-- The `repr`s of the elements of a list value. -/
def pyReprList : List Value → List Str
  | [] => []
  | v :: vs => pyRepr v :: pyReprList vs

/-- The `repr`s of the entries of a dict value, each printed as
`key: value`. -/
def pyReprKVs : List (Str × Value) → List Str
  | [] => []
  | (k, v) :: kvs => (pyReprStr k ++ ':' :: ' ' :: pyRepr v) :: pyReprKVs kvs

end

/-- Python `str` of a value: the string itself for strings, otherwise the
same text as `repr` (which is what `str.format` interpolates for ints,
lists and dicts). -/
def pyStr : Value → Str
  | .str s => s
  | v => pyRepr v

/-- Python `dict(pairs)`: later bindings of a key overwrite earlier ones
in place, keys keep their first-occurrence position. -/
def pyDictOfPairs {α : Type} (l : List (Str × α)) : List (Str × α) :=
  l.foldl
    (fun acc kv =>
      if acc.any (fun p => p.1 == kv.1) then
        acc.map (fun p => if p.1 == kv.1 then (p.1, kv.2) else p)
      else acc ++ [kv])
    []

/-- Python `d[k]` / `k in d` on a dict held as an association list:
the first binding of `k`, if any. -/
def pyLookup {α : Type} (l : List (Str × α)) (k : Str) : Option α :=
  (l.find? (fun p => p.1 == k)).map (fun p => p.2)

/-- The composite key `f"{parent_key}{separator}{key}" if parent_key else
key` of `flatten_dict`. -/
def newKey (parent_key separator key : Str) : Str :=
  if parent_key = [] then key else parent_key ++ separator ++ key

/-- Python `del l[i]`: removes position `i`, raising `IndexError` when the
index is out of range. -/
def pyDelAt (l : List Value) (i : Nat) : Except PyErr (List Value) :=
  if i < l.length then .ok (l.eraseIdx i) else .error .indexError

/-- The `for index in to_remove: del value[index]` loop of `flatten_dict`,
deleting sequentially in the order the indices were collected. -/
def pyDelMulti : List Value → List Nat → Except PyErr (List Value)
  | l, [] => .ok l
  | l, i :: rest =>
    match pyDelAt l i with
    | .error e => .error e
    | .ok l2 => pyDelMulti l2 rest

mutual

/-- The contribution of one `(key, value)` entry of `flatten_dict` to the
`flattened` pair list, given its composite key `nk`.  A dict value is
flattened recursively (the recursive call's `dict(...)` result is
`pyDictOfPairs` of the recursively flattened pairs) and its items are
spliced in; a list value is scanned by `flatListElems`, then the collected
indices are deleted from the copy by `pyDelMulti` and the shortened copy
is appended under `nk`; any other value is appended as-is. -/
def flatVal : Value → Str → Str → Except PyErr (List (Str × Value))
  | Value.dict kvs, nk, separator =>
    match flatPairs kvs nk separator with
    | .error e => .error e
    | .ok sub => .ok (pyDictOfPairs sub)
  | Value.list xs, nk, separator =>
    match flatListElems xs 0 nk separator with
    | .error e => .error e
    | .ok (subFlat, toRemove) =>
      match pyDelMulti xs toRemove with
      | .error e => .error e
      | .ok shortened => .ok (subFlat ++ [(nk, Value.list shortened)])
  | v, nk, _ => .ok [(nk, v)]

/-- The entry loop of `flatten_dict`: walks the `(key, value)` pairs of
the input dict in order, splicing each entry's contribution into the
`flattened` pair list. -/
def flatPairs : List (Str × Value) → Str → Str → Except PyErr (List (Str × Value))
  | [], _, _ => .ok []
  | (key, v) :: rest, parent_key, separator =>
    match flatVal v (newKey parent_key separator key) separator with
    | .error e => .error e
    | .ok contrib =>
      match flatPairs rest parent_key separator with
      | .error e => .error e
      | .ok tail => .ok (contrib ++ tail)

/-- One element of a list value inside `flatten_dict`: a dict element is
flattened (yielding the items to accumulate), any other element
contributes nothing and stays. -/
def flatElem : Value → Str → Str → Except PyErr (Option (List (Str × Value)))
  | Value.dict kvs, nk, separator =>
    match flatPairs kvs nk separator with
    | .error e => .error e
    | .ok sub => .ok (some (pyDictOfPairs sub))
  | _, _, _ => .ok none

/-- The `for index, val in enumerate(value)` loop of `flatten_dict`:
dict elements are flattened (their flattened items accumulate onto
`flattened`) and their original indices are collected into `to_remove`;
other elements are passed over. -/
def flatListElems : List Value → Nat → Str → Str → Except PyErr (List (Str × Value) × List Nat)
  | [], _, _, _ => .ok ([], [])
  | val :: xs, index, nk, separator =>
    match flatElem val nk separator with
    | .error e => .error e
    | .ok none => flatListElems xs (index + 1) nk separator
    | .ok (some sub) =>
      match flatListElems xs (index + 1) nk separator with
      | .error e => .error e
      | .ok (restFlat, restIdx) => .ok (sub ++ restFlat, index :: restIdx)

end

/-- Source function `flatten_dict(nested_dict, parent_key, separator)`:
flattens a nested dict into `dict(flattened)`.  The result is an
association list with Python-dict key semantics (`pyDictOfPairs`). -/
def flatten_dict (nested_dict : List (Str × Value)) (parent_key : Str := [])
    (separator : Str := ['_']) : Except PyErr (List (Str × Value)) :=
  match flatPairs nested_dict parent_key separator with
  | .error e => .error e
  | .ok fl => .ok (pyDictOfPairs fl)

/-- The eight comparison templates of `classify_filter`'s `tests` dict,
one constructor per template string:
`ncontains` for `'{needle}' not in '{haystack}'`,
`contains` for `'{needle}' in '{haystack}'`,
`nequals` for `'{haystack}' != '{needle}'`,
`equals` for `'{haystack}' == '{needle}'`,
`nstarts` for `not '{haystack}'.startswith('{needle}')`,
`starts` for `'{haystack}'.startswith('{needle}')`,
`nends` for `not '{haystack}'.endswith('{needle}')`,
`ends` for `'{haystack}'.endswith('{needle}')`. -/
inductive TestKind where
  | ncontains
  | contains
  | nequals
  | equals
  | nstarts
  | starts
  | nends
  | ends
  deriving DecidableEq

/-- The `FilterTest` namedtuple of the source: haystack key, needle
string, and the comparison template to evaluate. -/
structure FilterTest where
  haystack : Str
  needle : Str
  test : TestKind
  deriving DecidableEq

/-- The `tests` dict of `classify_filter`, in its insertion order — the
order in which `for cond, test in tests.items()` scans the operator
tokens. -/
def testsTable : List (Str × TestKind) :=
  [(['!', '<'], .ncontains),
   (['<'], .contains),
   (['!', '='], .nequals),
   (['='], .equals),
   (['!', '{'], .nstarts),
   (['{'], .starts),
   (['!', '}'], .nends),
   (['}'], .ends)]

/-- The `for cond, test in tests.items(): if cond in filter_string` scan
over an operator table: the first token that occurs in `s` wins. -/
def findTokAux : List (Str × TestKind) → Str → Option (Str × TestKind)
  | [], _ => none
  | (tok, kind) :: rest, s =>
    if strContains s tok then some (tok, kind) else findTokAux rest s

/-- The operator-table scan of `classify_filter` over its fixed `tests`
dict. -/
def findFirstTok (s : Str) : Option (Str × TestKind) := findTokAux testsTable s

/-- Classification of a comma-free clause: scan the operator table;
with no match the function falls off its `for` loop and returns `None`
(`ok none`); with a match, `k, v = filter_string.split(cond)` destructures
the split — exactly two parts yield `FilterTest(haystack=k, needle=v,
test=test)`, any other number of parts raises `ValueError` (unpacking
mismatch). -/
def classifyClause (s : Str) : Except PyErr (Option FilterTest) :=
  match findFirstTok s with
  | none => .ok none
  | some (tok, kind) =>
    match pySplit tok s with
    | [k, v] => .ok (some ⟨k, v, kind⟩)
    | _ => .error .valueError

/-- The `[classify_filter(f) for f in filter_string.split(",")]`
comprehension: clauses are classified left to right, the first raising
clause aborts the whole call. -/
def mapClassify : List Str → Except PyErr (List (Option FilterTest))
  | [] => .ok []
  | s :: rest =>
    match classifyClause s with
    | .error e => .error e
    | .ok o =>
      match mapClassify rest with
      | .error e => .error e
      | .ok l => .ok (o :: l)

/-- The possible returns of `classify_filter`: Python `None` (no operator
matched), a single `FilterTest`, or — for a comma-separated string — the
list of each clause's result (`FilterTest` or `None`). -/
inductive ClassifyResult where
  | pynone
  | single (ft : FilterTest)
  | multi (fts : List (Option FilterTest))
  deriving DecidableEq

/-- Source function `classify_filter(filter_string)`: a comma-containing
string is split on commas and each clause is classified on its own;
otherwise the clause itself is classified. -/
def classify_filter (filter_string : Str) : Except PyErr ClassifyResult :=
  if strContains filter_string [','] then
    match mapClassify (pySplit [','] filter_string) with
    | .error e => .error e
    | .ok l => .ok (.multi l)
  else
    match classifyClause filter_string with
    | .error e => .error e
    | .ok none => .ok .pynone
    | .ok (some ft) => .ok (.single ft)

/-- The `if not isinstance(resolved_filter, list): resolved_filter =
[resolved_filter]` normalisation shared by both evaluators: a bare
`None` or `FilterTest` becomes a one-element list. -/
def normalizeFilter : ClassifyResult → List (Option FilterTest)
  | .pynone => [none]
  | .single ft => [some ft]
  | .multi l => l

/-- Turns a list of optional filter tests into `some` list of tests
exactly when no entry is `None`. -/
def seqOptions : List (Option FilterTest) → Option (List FilterTest)
  | [] => some []
  | none :: _ => none
  | some ft :: rest => (seqOptions rest).map (fun l => ft :: l)

/-- The predicates a filter string parses to, if `classify_filter`
succeeds and every clause produced a `FilterTest` (no `None` entries after
normalisation). -/
def parsedPredicates (fstr : Str) : Option (List FilterTest) :=
  match classify_filter fstr with
  | .error _ => none
  | .ok cr => seqOptions (normalizeFilter cr)

/-- Whether a string may be spliced into a single-quoted Python literal
and evaluated without derailing `eval`: it must contain no single quote,
backslash, newline, carriage return or NUL.  A quote or newline breaks
the literal (CPython raises `SyntaxError`, as for `eval("'t' in 'it's'")`),
a NUL raises `ValueError`, and a backslash is reinterpreted as an escape;
the rare broken-literal corner cases that happen to still parse are
conservatively modelled as errors as well. -/
def goodLit (s : Str) : Bool :=
  !(s.any fun c => c == sqChar || c == bsChar || c == nlChar || c == crChar || c == nulChar)

/-- The comparison each template of `testsTable` performs once `eval` has
parsed the formatted source: substring, equality, prefix and suffix tests
(and their negations) on the two interpolated strings. -/
def evalTestKind : TestKind → Str → Str → Bool
  | .ncontains, haystack, needle => !(strContains haystack needle)
  | .contains, haystack, needle => strContains haystack needle
  | .nequals, haystack, needle => !(haystack == needle)
  | .equals, haystack, needle => haystack == needle
  | .nstarts, haystack, needle => !(strStarts needle haystack)
  | .starts, haystack, needle => strStarts needle haystack
  | .nends, haystack, needle => !(strStarts needle.reverse haystack.reverse)
  | .ends, haystack, needle => strStarts needle.reverse haystack.reverse

/-- Evaluation step `eval(rf.test.format(haystack=…, needle=…))`: the two operands are
interpolated into the template's single-quoted literals and the result is
evaluated as Python source.  When both interpolated strings are clean
literals the comparison of `evalTestKind` results; otherwise the
constructed source is broken and `eval` raises (see `goodLit`). -/
def pyEvalTest (kind : TestKind) (haystack needle : Str) : Except PyErr Bool :=
  if goodLit haystack && goodLit needle then .ok (evalTestKind kind haystack needle)
  else .error .syntaxError

/-- The `eval_list` comprehension of `results_filter` for one result
value: every entry of the resolved filter is evaluated against the value
(`haystack=res`); a `None` entry raises `AttributeError` the moment
`rf.test` is accessed. -/
def collectRes (res : Value) : List (Option FilterTest) → Except PyErr (List Bool)
  | [] => .ok []
  | none :: _ => .error .attributeError
  | some ft :: rest =>
    match pyEvalTest ft.test (pyStr res) ft.needle with
    | .error e => .error e
    | .ok b =>
      match collectRes res rest with
      | .error e => .error e
      | .ok bs => .ok (b :: bs)

/-- The `for res in results` loop of `results_filter`: a value is kept
iff its `eval_list` is non-empty and all `True`. -/
def resultsLoop (rfs : List (Option FilterTest)) : List Value → Except PyErr (List Value)
  | [] => .ok []
  | res :: rest =>
    match collectRes res rfs with
    | .error e => .error e
    | .ok eval_list =>
      match resultsLoop rfs rest with
      | .error e => .error e
      | .ok tail =>
        if !eval_list.isEmpty && eval_list.all (fun b => b) then .ok (res :: tail)
        else .ok tail

/-- Source function `results_filter(results, raw_filter)`. -/
def results_filter (results : List Value) (raw_filter : Str) : Except PyErr (List Value) :=
  match classify_filter raw_filter with
  | .error e => .error e
  | .ok cr => resultsLoop (normalizeFilter cr) results

/-- The `eval_list` comprehension of `inventory_filter` for one flattened
host: entries whose haystack key is absent from the flattened host are
skipped by the comprehension's `if rf.haystack in flattened_host` guard;
a `None` entry raises `AttributeError` when the guard accesses
`rf.haystack`. -/
def collectInv (flattened : List (Str × Value)) : List (Option FilterTest) → Except PyErr (List Bool)
  | [] => .ok []
  | none :: _ => .error .attributeError
  | some ft :: rest =>
    match pyLookup flattened ft.haystack with
    | none => collectInv flattened rest
    | some v =>
      match pyEvalTest ft.test (pyStr v) ft.needle with
      | .error e => .error e
      | .ok b =>
        match collectInv flattened rest with
        | .error e => .error e
        | .ok bs => .ok (b :: bs)

/-- The `for host in inventory` loop of `inventory_filter`: each host is
flattened with separator `"."`, then kept iff its `eval_list` is
non-empty and all `True`. -/
def invLoop (rfs : List (Option FilterTest)) : List (List (Str × Value)) → Except PyErr (List (List (Str × Value)))
  | [] => .ok []
  | host :: rest =>
    match flatten_dict host [] ['.'] with
    | .error e => .error e
    | .ok flattened =>
      match collectInv flattened rfs with
      | .error e => .error e
      | .ok eval_list =>
        match invLoop rfs rest with
        | .error e => .error e
        | .ok tail =>
          if !eval_list.isEmpty && eval_list.all (fun b => b) then .ok (host :: tail)
          else .ok tail

/-- Source function `inventory_filter(inventory, raw_filter)`. -/
def inventory_filter (inventory : List (List (Str × Value))) (raw_filter : Str) :
    Except PyErr (List (List (Str × Value))) :=
  match classify_filter raw_filter with
  | .error e => .error e
  | .ok cr => invLoop (normalizeFilter cr) inventory

/-!
Heap model of `flatten_dict`, used to state that the function never
mutates its input.  The only mutating statement in the source is
`del value[index]`, which acts on Python list objects, so lists are the
one kind of object that needs an identity here: an `HValue` list is an
address into a heap of list cells, and `value.copy()` allocates a fresh
cell.  Dicts need no identity because `flatten_dict` contains no
dict-mutating statement at all.  The functions are fuelled (every
recursive call consumes fuel); running out of fuel returns `none` and the
heap reached so far, so the frame theorem below is fuel-independent.
-/

/-- A Python value with list objects represented by heap addresses. -/
inductive HValue where
  | int (n : Int)
  | str (s : Str)
  | list (addr : Nat)
  | dict (kvs : List (Str × HValue))

/-- The store of list objects: cell `a` holds the elements of the list
object at address `a`. -/
abbrev Heap := List (List HValue)

/-- Reading the contents of the list object at address `a`. -/
def readH (h : Heap) (a : Nat) : List HValue := h.getD a []

/-- Overwriting the contents of the list object at address `a`. -/
def writeH (h : Heap) (a : Nat) (cell : List HValue) : Heap := h.set a cell

/-- Python `del` on the list object at address `a`: removes position `i`
of its cell in place, raising `IndexError` when out of range. -/
def delAtH (h : Heap) (a i : Nat) : Except PyErr Unit × Heap :=
  if i < (readH h a).length then (.ok (), writeH h a ((readH h a).eraseIdx i))
  else (.error .indexError, h)

/-- The `for index in to_remove: del value[index]` loop acting on the
list object at address `a`. -/
def delMultiH (h : Heap) (a : Nat) : List Nat → Except PyErr Unit × Heap
  | [] => (.ok (), h)
  | i :: rest =>
    match delAtH h a i with
    | (.error e, h1) => (.error e, h1)
    | (.ok _, h1) => delMultiH h1 a rest

mutual

/-- Heap-model counterpart of `flatVal`.  For a list value, `value =
value.copy()` allocates a fresh cell holding the same elements at the end
of the heap; the element scan and the deletions then act on that fresh
cell only, and the shortened copy's address is what is stored under the
composite key. -/
def flatHVal : Nat → Heap → HValue → Str → Str → Option (Except PyErr (List (Str × HValue))) × Heap
  | 0, h, _, _, _ => (none, h)
  | fuel + 1, h, HValue.dict kvs, nk, separator =>
    match flatHPairs fuel h kvs nk separator with
    | (none, h1) => (none, h1)
    | (some (.error e), h1) => (some (.error e), h1)
    | (some (.ok sub), h1) => (some (.ok (pyDictOfPairs sub)), h1)
  | fuel + 1, h, HValue.list addr, nk, separator =>
    let contents := readH h addr
    let caddr := h.length
    let h1 := h ++ [contents]
    match flatHSeq fuel h1 contents 0 nk separator with
    | (none, h2) => (none, h2)
    | (some (.error e), h2) => (some (.error e), h2)
    | (some (.ok (subFlat, toRemove)), h2) =>
      match delMultiH h2 caddr toRemove with
      | (.error e, h3) => (some (.error e), h3)
      | (.ok _, h3) => (some (.ok (subFlat ++ [(nk, HValue.list caddr)])), h3)
  | _ + 1, h, v, nk, _ => (some (.ok [(nk, v)]), h)

/-- Heap-model counterpart of `flatPairs`. -/
def flatHPairs : Nat → Heap → List (Str × HValue) → Str → Str → Option (Except PyErr (List (Str × HValue))) × Heap
  | 0, h, _, _, _ => (none, h)
  | _ + 1, h, [], _, _ => (some (.ok []), h)
  | fuel + 1, h, (key, v) :: rest, parent_key, separator =>
    match flatHVal fuel h v (newKey parent_key separator key) separator with
    | (none, h1) => (none, h1)
    | (some (.error e), h1) => (some (.error e), h1)
    | (some (.ok contrib), h1) =>
      match flatHPairs fuel h1 rest parent_key separator with
      | (none, h2) => (none, h2)
      | (some (.error e), h2) => (some (.error e), h2)
      | (some (.ok tail), h2) => (some (.ok (contrib ++ tail)), h2)

/-- Heap-model counterpart of `flatElem`. -/
def flatHElem : Nat → Heap → HValue → Str → Str → Option (Except PyErr (Option (List (Str × HValue)))) × Heap
  | 0, h, _, _, _ => (none, h)
  | fuel + 1, h, HValue.dict kvs, nk, separator =>
    match flatHPairs fuel h kvs nk separator with
    | (none, h1) => (none, h1)
    | (some (.error e), h1) => (some (.error e), h1)
    | (some (.ok sub), h1) => (some (.ok (some (pyDictOfPairs sub))), h1)
  | _ + 1, h, _, _, _ => (some (.ok none), h)

/-- Heap-model counterpart of `flatListElems`. -/
def flatHSeq : Nat → Heap → List HValue → Nat → Str → Str → Option (Except PyErr (List (Str × HValue) × List Nat)) × Heap
  | 0, h, _, _, _, _ => (none, h)
  | _ + 1, h, [], _, _, _ => (some (.ok ([], [])), h)
  | fuel + 1, h, val :: xs, index, nk, separator =>
    match flatHElem fuel h val nk separator with
    | (none, h1) => (none, h1)
    | (some (.error e), h1) => (some (.error e), h1)
    | (some (.ok none), h1) => flatHSeq fuel h1 xs (index + 1) nk separator
    | (some (.ok (some sub)), h1) =>
      match flatHSeq fuel h1 xs (index + 1) nk separator with
      | (none, h2) => (none, h2)
      | (some (.error e), h2) => (some (.error e), h2)
      | (some (.ok (restFlat, restIdx)), h2) => (some (.ok (sub ++ restFlat, index :: restIdx)), h2)

end

/-- Heap-model `flatten_dict`: flattens and wraps the pair list into a
dict, threading the heap of list objects. -/
def flatten_dictH (fuel : Nat) (h : Heap) (nested_dict : List (Str × HValue))
    (parent_key separator : Str) : Option (Except PyErr (List (Str × HValue))) × Heap :=
  match flatHPairs fuel h nested_dict parent_key separator with
  | (none, h1) => (none, h1)
  | (some (.error e), h1) => (some (.error e), h1)
  | (some (.ok fl), h1) => (some (.ok (pyDictOfPairs fl)), h1)

/-- Relation stating that `h'` extends `h`: every list object that existed in `h` is unchanged
in `h'` (new objects may have been appended). -/
def heapExtends (h h' : Heap) : Prop :=
  h.length ≤ h'.length ∧ ∀ a, a < h.length → h'[a]? = h[a]?

/-!
Spec-side definitions, used to state what the evaluators compute in the
cases where the dynamic `eval` succeeds.
-/

/-- Side condition on one predicate against one flattened host: when the
predicate's haystack key is present, the value's string form and the
needle must be clean literals (`goodLit`), so that the `eval` of the
formatted comparison succeeds. -/
def ftOkFor (fl : List (Str × Value)) (ft : FilterTest) : Bool :=
  match pyLookup fl ft.haystack with
  | some v => goodLit (pyStr v) && goodLit ft.needle
  | none => true

/-- Modelled from the spec: the collected boolean results for one
flattened record — one boolean per predicate whose haystack key is
present in the record, in predicate order; predicates whose key is absent
contribute nothing. -/
def specCollect (fts : List FilterTest) (fl : List (Str × Value)) : List Bool :=
  fts.filterMap fun ft =>
    (pyLookup fl ft.haystack).map fun v => evalTestKind ft.test (pyStr v) ft.needle

/-- Hypothesis bundle for one host of `inventory_filter`: flattening the
host succeeds, and every predicate is evaluable against the flattened
host (`ftOkFor`). -/
def invHostOk (fts : List FilterTest) (host : List (Str × Value)) : Bool :=
  match flatten_dict host [] ['.'] with
  | .error _ => false
  | .ok fl => fts.all fun ft => ftOkFor fl ft

/-- Modelled from the spec: a host is retained iff the collected
boolean-result list for its flattened form is non-empty and all entries
are true (a host whose flattening fails is never retained — the code
would have raised before reaching the predicate logic). -/
def invKeep (fts : List FilterTest) (host : List (Str × Value)) : Bool :=
  match flatten_dict host [] ['.'] with
  | .error _ => false
  | .ok fl => !(specCollect fts fl).isEmpty && (specCollect fts fl).all fun b => b

/-!
Lemma layer: properties of the string primitives, the parser and the
evaluators, followed by the claim theorems.
-/

/-- A string starts with `p` exactly when it is `p` followed by a rest. -/
theorem strStarts_iff (p : Str) : ∀ s : Str, strStarts p s = true ↔ ∃ t, s = p ++ t := by
  induction p with
  | nil =>
    intro s
    simp [strStarts]
  | cons c ps ih =>
    intro s
    cases s with
    | nil => simp [strStarts]
    | cons d rest =>
      simp only [strStarts, Bool.and_eq_true, beq_iff_eq, ih, List.cons_append, List.cons.injEq]
      constructor
      · rintro ⟨rfl, t, rfl⟩
        exact ⟨t, rfl, rfl⟩
      · rintro ⟨t, rfl, rfl⟩
        exact ⟨rfl, t, rfl⟩

/-- Splitting really splits: the pieces reassemble to the input. -/
theorem splitFirst_append (sep : Str) :
    ∀ s pre post, splitFirst sep s = some (pre, post) → s = pre ++ (sep ++ post) := by
  intro s
  induction s with
  | nil =>
    intro pre post h
    simp only [splitFirst] at h
    by_cases hs : strStarts sep [] = true
    · rw [if_pos hs] at h
      obtain ⟨t, ht⟩ := (strStarts_iff sep []).mp hs
      rcases List.append_eq_nil.mp ht.symm with ⟨rfl, rfl⟩
      simp only [Option.some.injEq, Prod.mk.injEq] at h
      obtain ⟨h1, h2⟩ := h
      subst h1; subst h2
      rfl
    · rw [if_neg hs] at h
      exact absurd h (by simp)
  | cons c rest ih =>
    intro pre post h
    simp only [splitFirst] at h
    by_cases hs : strStarts sep (c :: rest) = true
    · rw [if_pos hs] at h
      obtain ⟨t, ht⟩ := (strStarts_iff sep (c :: rest)).mp hs
      simp only [Option.some.injEq, Prod.mk.injEq] at h
      obtain ⟨h1, h2⟩ := h
      subst h1
      rw [ht, List.drop_left sep t] at h2
      subst h2
      simpa using ht
    · rw [if_neg hs] at h
      cases hsp : splitFirst sep rest with
      | none => rw [hsp] at h; exact absurd h (by simp)
      | some pq =>
        obtain ⟨pre2, post2⟩ := pq
        rw [hsp] at h
        simp only [Option.some.injEq, Prod.mk.injEq] at h
        obtain ⟨h1, h2⟩ := h
        subst h2
        rw [← h1]
        have hr := ih pre2 post2 hsp
        simp [hr]

/-- If `sep` occurs in `s`, `splitFirst` finds an occurrence. -/
theorem splitFirst_isSome (sep : Str) :
    ∀ pre post s, s = pre ++ sep ++ post → (splitFirst sep s).isSome = true := by
  intro pre
  induction pre with
  | nil =>
    intro post s h
    simp only [List.nil_append] at h
    have hs : strStarts sep s = true := (strStarts_iff sep s).mpr ⟨post, h⟩
    cases s with
    | nil => simp only [splitFirst]; rw [if_pos hs]; rfl
    | cons c rest => simp only [splitFirst]; rw [if_pos hs]; rfl
  | cons c pre2 ih =>
    intro post s h
    have hcons : s = c :: (pre2 ++ sep ++ post) := by simpa using h
    subst hcons
    simp only [splitFirst]
    by_cases hs : strStarts sep (c :: (pre2 ++ sep ++ post)) = true
    · rw [if_pos hs]; rfl
    · rw [if_neg hs]
      have hrec := ih post (pre2 ++ sep ++ post) rfl
      cases hsp : splitFirst sep (pre2 ++ sep ++ post) with
      | none => rw [hsp] at hrec; simp at hrec
      | some pq => obtain ⟨a, b⟩ := pq; rfl

/-- Python `in`: `sub` occurs in `s` exactly when `s` decomposes around
`sub`. -/
theorem strContains_iff (s sub : Str) :
    strContains s sub = true ↔ ∃ pre post, s = pre ++ sub ++ post := by
  constructor
  · intro h
    unfold strContains at h
    cases hsp : splitFirst sub s with
    | none => rw [hsp] at h; simp at h
    | some pq =>
      obtain ⟨pre, post⟩ := pq
      exact ⟨pre, post, by simpa [List.append_assoc] using splitFirst_append sub s pre post hsp⟩
  · rintro ⟨pre, post, rfl⟩
    unfold strContains
    simpa [List.append_assoc] using splitFirst_isSome sub pre post (pre ++ sub ++ post) rfl

/-- Python `str.split` never returns an empty list of pieces. -/
theorem pySplitAux_ne_nil (fuel : Nat) (sep s : Str) : pySplitAux fuel sep s ≠ [] := by
  cases fuel with
  | zero => simp [pySplitAux]
  | succ n =>
    simp only [pySplitAux]
    cases splitFirst sep s with
    | none => simp
    | some pq => obtain ⟨a, b⟩ := pq; simp

/-- Every piece produced by `str.split` occurs inside the input string. -/
theorem pySplitAux_mem_decomp (sep : Str) :
    ∀ fuel s p, p ∈ pySplitAux fuel sep s → ∃ pre post, s = pre ++ p ++ post := by
  intro fuel
  induction fuel with
  | zero =>
    intro s p hp
    simp only [pySplitAux, List.mem_singleton] at hp
    exact ⟨[], [], by simp [hp]⟩
  | succ n ih =>
    intro s p hp
    simp only [pySplitAux] at hp
    cases hsp : splitFirst sep s with
    | none =>
      rw [hsp] at hp
      simp only [List.mem_singleton] at hp
      exact ⟨[], [], by simp [hp]⟩
    | some pq =>
      obtain ⟨pre0, post0⟩ := pq
      rw [hsp] at hp
      have hdec := splitFirst_append sep s pre0 post0 hsp
      rcases List.mem_cons.mp hp with rfl | hp'
      · exact ⟨[], sep ++ post0, by simpa using hdec⟩
      · obtain ⟨a, b, hab⟩ := ih post0 p hp'
        refine ⟨pre0 ++ sep ++ a, b, ?_⟩
        rw [hdec, hab]
        simp [List.append_assoc]

/-- Occurrences inside a piece of a split are occurrences in the whole
string; contrapositively, a token absent from the string is absent from
every piece. -/
theorem strContains_of_piece {sep s p tok : Str}
    (hp : p ∈ pySplit sep s) (ht : strContains p tok = true) :
    strContains s tok = true := by
  obtain ⟨a, b, rfl⟩ := pySplitAux_mem_decomp sep _ s p hp
  obtain ⟨c, d, rfl⟩ := (strContains_iff p tok).mp ht
  exact (strContains_iff _ tok).mpr ⟨a ++ c, d ++ b, by simp [List.append_assoc]⟩


/-- A split whose first occurrence search fails returns the whole string
as the single piece, at any fuel. -/
theorem pySplitAux_of_none {sep s : Str} (h : splitFirst sep s = none) (fuel : Nat) :
    pySplitAux fuel sep s = [s] := by
  cases fuel <;> simp [pySplitAux, h]

/-- The remainder after the first occurrence is strictly shorter, for a
non-empty separator. -/
theorem splitFirst_post_lt {sep s pre post : Str}
    (h : splitFirst sep s = some (pre, post)) (hsep : sep ≠ []) :
    post.length < s.length := by
  have hdec := splitFirst_append sep s pre post h
  have hlen : s.length = pre.length + (sep.length + post.length) := by
    rw [hdec]; simp
  have hpos : 0 < sep.length := List.length_pos.mpr hsep
  omega

/-- A two-piece split reassembles around the separator. -/
theorem pySplitAux_pair :
    ∀ fuel (sep s k v : Str), sep ≠ [] → s.length < fuel →
      pySplitAux fuel sep s = [k, v] → s = k ++ sep ++ v := by
  intro fuel
  induction fuel with
  | zero => intro sep s k v _ hlt _; exact absurd hlt (by omega)
  | succ n ih =>
    intro sep s k v hsep hlt h
    simp only [pySplitAux] at h
    cases hsp : splitFirst sep s with
    | none => rw [hsp] at h; simp at h
    | some pq =>
      obtain ⟨pre0, post0⟩ := pq
      rw [hsp] at h
      simp only [List.cons.injEq] at h
      obtain ⟨hk, h2⟩ := h
      cases hsp2 : splitFirst sep post0 with
      | none =>
        rw [pySplitAux_of_none hsp2 n] at h2
        simp only [List.cons.injEq] at h2
        obtain ⟨hv, -⟩ := h2
        have hdec := splitFirst_append sep s pre0 post0 hsp
        rw [← hk, ← hv]
        simpa [List.append_assoc] using hdec
      | some pq2 =>
        obtain ⟨a2, b2⟩ := pq2
        have hlt2 : post0.length < n := by
          have := splitFirst_post_lt hsp hsep
          omega
        cases n with
        | zero => omega
        | succ m =>
          simp only [pySplitAux, hsp2, List.cons.injEq] at h2
          exact absurd h2.2 (pySplitAux_ne_nil m sep b2)

/-- Python `s.split(sep)` with exactly two pieces reassembles around the
unique occurrence of `sep`. -/
theorem pySplit_pair {sep s k v : Str} (hsep : sep ≠ []) (h : pySplit sep s = [k, v]) :
    s = k ++ sep ++ v :=
  pySplitAux_pair (s.length + 1) sep s k v hsep (Nat.lt_succ_self _) h

/-- The ordered operator-table scan returns the first token that occurs:
the table decomposes around the returned entry and no earlier token
occurs in the clause. -/
theorem findTokAux_first :
    ∀ (table : List (Str × TestKind)) (s tok : Str) (kind : TestKind),
      findTokAux table s = some (tok, kind) →
      ∃ pre post, table = pre ++ (tok, kind) :: post ∧ ∀ q ∈ pre, strContains s q.1 = false := by
  intro table
  induction table with
  | nil => intro s tok kind h; simp [findTokAux] at h
  | cons p rest ih =>
    intro s tok kind h
    obtain ⟨t, k⟩ := p
    simp only [findTokAux] at h
    by_cases hc : strContains s t = true
    · rw [if_pos hc] at h
      simp only [Option.some.injEq, Prod.mk.injEq] at h
      obtain ⟨rfl, rfl⟩ := h
      exact ⟨[], rest, rfl, by simp⟩
    · rw [if_neg hc] at h
      obtain ⟨pre, post, hdec, hall⟩ := ih s tok kind h
      refine ⟨(t, k) :: pre, post, by rw [hdec]; rfl, ?_⟩
      intro q hq
      rcases List.mem_cons.mp hq with rfl | hq2
      · simpa using hc
      · exact hall q hq2

/-- If no operator token occurs in the clause, the table scan fails. -/
theorem findTokAux_none :
    ∀ (table : List (Str × TestKind)) (s : Str),
      (∀ q ∈ table, strContains s q.1 = false) → findTokAux table s = none := by
  intro table
  induction table with
  | nil => intro s _; rfl
  | cons p rest ih =>
    intro s hall
    obtain ⟨t, k⟩ := p
    simp only [findTokAux]
    rw [if_neg (by simp [hall (t, k) (List.mem_cons_self _ _)])]
    exact ih s (fun q hq => hall q (List.mem_cons_of_mem _ hq))

/-- A clause in which no operator token occurs classifies to Python
`None`. -/
theorem classifyClause_none {s : Str}
    (h : ∀ q ∈ testsTable, strContains s q.1 = false) :
    classifyClause s = .ok none := by
  unfold classifyClause findFirstTok
  rw [findTokAux_none testsTable s h]

/-- Classifying clauses that all yield `None` gives the list of `None`s. -/
theorem mapClassify_none :
    ∀ pieces : List Str, (∀ p ∈ pieces, classifyClause p = .ok none) →
      mapClassify pieces = .ok (pieces.map fun _ => (none : Option FilterTest)) := by
  intro pieces
  induction pieces with
  | nil => intro _; rfl
  | cons p rest ih =>
    intro hall
    simp only [mapClassify, hall p (List.mem_cons_self _ _),
      ih (fun q hq => hall q (List.mem_cons_of_mem _ hq)), List.map_cons]

/-- A filter string with no recognized operator token classifies to
Python `None` (comma-free) or to a list of `None`s (with commas); either
way the normalised filter list starts with a `None` entry. -/
theorem classify_unrecognized {fstr : Str}
    (hop : ∀ q ∈ testsTable, strContains fstr q.1 = false) :
    ∃ cr l, classify_filter fstr = .ok cr ∧ normalizeFilter cr = none :: l := by
  by_cases hc : strContains fstr [','] = true
  · have hall : ∀ p ∈ pySplit [','] fstr, classifyClause p = .ok none := by
      intro p hp
      apply classifyClause_none
      intro q hq
      cases hpq : strContains p q.1 with
      | false => rfl
      | true => exact absurd (strContains_of_piece hp hpq) (by simp [hop q hq])
    have hmap := mapClassify_none (pySplit [','] fstr) hall
    cases hpieces : pySplit [','] fstr with
    | nil => exact absurd hpieces (pySplitAux_ne_nil _ _ _)
    | cons p ps =>
      rw [hpieces] at hmap
      refine ⟨.multi ((p :: ps).map fun _ => none), ps.map fun _ => none, ?_, ?_⟩
      · simp only [classify_filter]
        rw [if_pos hc, hpieces, hmap]
      · simp [normalizeFilter]
  · have hcc : classifyClause fstr = .ok none := classifyClause_none hop
    refine ⟨.pynone, [], ?_, rfl⟩
    simp only [classify_filter]
    rw [if_neg hc, hcc]


/-- C1 counterexample: with the empty filter string (no recognized
operator), both evaluators raise `AttributeError` on a non-empty input
instead of returning an empty sequence without exception. -/
theorem c1_counterexample :
    results_filter [Value.int 1] [] = .error .attributeError ∧
    inventory_filter [[(("k").toList, Value.int 1)]] [] = .error .attributeError :=
  ⟨rfl, rfl⟩

/-- C1 (amended): for every filter string containing no recognized
operator token, `classify_filter` produces `None` entries, and evaluating
them raises `AttributeError`: `results_filter` raises on any non-empty
input, and `inventory_filter` raises on any non-empty inventory whose
first record flattens successfully (the collected-results list is never
consulted, so nothing is ever returned). -/
theorem c1_unrecognized_filter_raises (fstr : Str)
    (hop : ∀ q ∈ testsTable, strContains fstr q.1 = false) :
    (∀ results, results ≠ [] → results_filter results fstr = .error .attributeError) ∧
    (∀ host rest fl, flatten_dict host [] ['.'] = .ok fl →
      inventory_filter (host :: rest) fstr = .error .attributeError) := by
  obtain ⟨cr, l, hcf, hn⟩ := classify_unrecognized hop
  constructor
  · intro results hne
    cases results with
    | nil => exact absurd rfl hne
    | cons r rs =>
      simp [results_filter, hcf, hn, resultsLoop, collectRes]
  · intro host rest fl hfl
    simp [inventory_filter, hcf, hn, invLoop, hfl, collectInv]

/-- C1 witness: a concrete operator-free filter string over concrete
non-empty inputs, discharging the hypotheses of
`c1_unrecognized_filter_raises`. -/
theorem c1_witness :
    results_filter [Value.int 7] (("nofilter").toList) = .error .attributeError ∧
    inventory_filter [[(("k").toList, Value.int 7)]] (("nofilter").toList) = .error .attributeError := by
  have h := c1_unrecognized_filter_raises (("nofilter").toList) (by decide)
  exact ⟨h.1 [Value.int 7] (by simp),
    h.2 [(("k").toList, Value.int 7)] [] [(("k").toList, Value.int 7)] (by rfl)⟩

/-- C3: the clause scan honours the fixed order of the operator table —
whenever it returns a token, no earlier table token occurs in the clause —
and, concretely, `"name!=foo"` classifies as not-equals (not equals) and
`"name!<foo"` as not-contains (not contains). -/
theorem c3_operator_precedence :
    (∀ s tok kind, findFirstTok s = some (tok, kind) →
      ∃ pre post, testsTable = pre ++ (tok, kind) :: post ∧
        ∀ q ∈ pre, strContains s q.1 = false) ∧
    classify_filter (("name!=foo").toList) =
      .ok (.single ⟨("name").toList, ("foo").toList, .nequals⟩) ∧
    classify_filter (("name!<foo").toList) =
      .ok (.single ⟨("name").toList, ("foo").toList, .ncontains⟩) := by
  refine ⟨?_, rfl, rfl⟩
  intro s tok kind h
  exact findTokAux_first testsTable s tok kind h

/-- C3 witness: instantiating the first-match property at the concrete
clause `"name!=foo"` and the matched token `!=`. -/
theorem c3_witness :
    ∃ pre post, testsTable = pre ++ ((['!', '=']), TestKind.nequals) :: post ∧
      ∀ q ∈ pre, strContains (("name!=foo").toList) q.1 = false :=
  c3_operator_precedence.1 (("name!=foo").toList) ['!', '='] TestKind.nequals (by rfl)

/-- The token returned by the operator-table scan is a table entry. -/
theorem findFirstTok_mem {s tok : Str} {kind : TestKind}
    (h : findFirstTok s = some (tok, kind)) : (tok, kind) ∈ testsTable := by
  obtain ⟨pre, post, hdec, -⟩ := findTokAux_first testsTable s tok kind h
  rw [hdec]
  exact List.mem_append_right _ (List.mem_cons_self _ _)

/-- No operator token of the table is the empty string. -/
theorem testsTable_tok_ne_nil : ∀ q ∈ testsTable, q.1 ≠ ([] : Str) := by decide

/-- C6 counterexample: in `"a=b=c"` the matched operator `=` occurs
twice, and `classify_filter` raises `ValueError` (three-way unpacking
mismatch) instead of splitting at the first occurrence. -/
theorem c6_counterexample : classify_filter (("a=b=c").toList) = .error .valueError := rfl

/-- C6 (amended): for a comma-free clause whose matched operator token
occurs exactly once (two split pieces), `classify_filter` returns the
haystack/needle split around that occurrence; when the token occurs more
than once (or the split otherwise fails to give two pieces) it raises
`ValueError`. -/
theorem c6_split_amended (s tok : Str) (kind : TestKind)
    (hc : strContains s [','] = false) (hf : findFirstTok s = some (tok, kind)) :
    (∀ k v, pySplit tok s = [k, v] →
      classify_filter s = .ok (.single ⟨k, v, kind⟩) ∧ k ++ tok ++ v = s) ∧
    ((pySplit tok s).length ≠ 2 → classify_filter s = .error .valueError) := by
  have htok_ne : tok ≠ [] := testsTable_tok_ne_nil (tok, kind) (findFirstTok_mem hf)
  constructor
  · intro k v hs
    refine ⟨?_, (pySplit_pair htok_ne hs).symm⟩
    simp [classify_filter, classifyClause, hf, hs, hc]
  · intro hlen
    cases hs : pySplit tok s with
    | nil => simp [classify_filter, classifyClause, hf, hs, hc]
    | cons a l1 =>
      cases l1 with
      | nil => simp [classify_filter, classifyClause, hf, hs, hc]
      | cons b l2 =>
        cases l2 with
        | nil => rw [hs] at hlen; simp at hlen
        | cons c l3 => simp [classify_filter, classifyClause, hf, hs, hc]

/-- C6 witness: `"k=vv"` has a unique `=`, so it splits into haystack
`"k"` and needle `"vv"`, and the pieces reassemble to the clause. -/
theorem c6_witness :
    classify_filter (("k=vv").toList) =
      .ok (.single ⟨("k").toList, ("vv").toList, .equals⟩) ∧
    ("k").toList ++ ['='] ++ ("vv").toList = ("k=vv").toList :=
  (c6_split_amended (("k=vv").toList) ['='] .equals (by rfl) (by rfl)).1
    (("k").toList) (("vv").toList) (by rfl)

/-- C10: round-trip — when a comma-free clause classifies to a single
predicate via matched token `tok`, the predicate's haystack, the token
and the needle concatenate back to the exact clause. -/
theorem c10_roundtrip (clause tok : Str) (kind : TestKind) (ft : FilterTest)
    (hc : strContains clause [','] = false) (hf : findFirstTok clause = some (tok, kind))
    (hp : classify_filter clause = .ok (.single ft)) :
    ft.haystack ++ tok ++ ft.needle = clause := by
  have htok_ne : tok ≠ [] := testsTable_tok_ne_nil (tok, kind) (findFirstTok_mem hf)
  cases hs : pySplit tok clause with
  | nil => simp [classify_filter, classifyClause, hf, hs, hc] at hp
  | cons a l1 =>
    cases l1 with
    | nil => simp [classify_filter, classifyClause, hf, hs, hc] at hp
    | cons b l2 =>
      cases l2 with
      | nil =>
        simp [classify_filter, classifyClause, hf, hs, hc] at hp
        rw [← hp]
        exact (pySplit_pair htok_ne hs).symm
      | cons c l3 => simp [classify_filter, classifyClause, hf, hs, hc] at hp

/-- C10 witness: the clause `"name=foo"` round-trips through its parsed
predicate. -/
theorem c10_witness :
    FilterTest.haystack ⟨("name").toList, ("foo").toList, .equals⟩ ++ ['='] ++
      FilterTest.needle ⟨("name").toList, ("foo").toList, .equals⟩ = ("name=foo").toList :=
  c10_roundtrip (("name=foo").toList) ['='] .equals
    ⟨("name").toList, ("foo").toList, .equals⟩ (by rfl) (by rfl) (by rfl)


/-- A fully-predicate normalised filter list is the `some`-image of its
predicate list. -/
theorem seqOptions_eq :
    ∀ (l : List (Option FilterTest)) (fts : List FilterTest),
      seqOptions l = some fts → l = fts.map some := by
  intro l
  induction l with
  | nil =>
    intro fts h
    simp only [seqOptions, Option.some.injEq] at h
    rw [← h]
    rfl
  | cons o rest ih =>
    intro fts h
    cases o with
    | none => simp [seqOptions] at h
    | some ft =>
      simp only [seqOptions] at h
      cases hr : seqOptions rest with
      | none => rw [hr] at h; simp at h
      | some fts2 =>
        rw [hr] at h
        simp only [Option.map_some', Option.some.injEq] at h
        rw [← h, List.map_cons]
        rw [ih fts2 hr]

/-- When every applicable predicate is evaluable, the `eval_list`
comprehension of `inventory_filter` collects exactly the spec-side
boolean list: one boolean per predicate whose key is present, skipping
absent keys without raising. -/
theorem collectInv_spec (fl : List (Str × Value)) :
    ∀ fts : List FilterTest, (∀ ft ∈ fts, ftOkFor fl ft = true) →
      collectInv fl (fts.map some) = .ok (specCollect fts fl) := by
  intro fts
  induction fts with
  | nil => intro _; rfl
  | cons ft rest ih =>
    intro hall
    have hft := hall ft (List.mem_cons_self _ _)
    have hrest := ih (fun f hf => hall f (List.mem_cons_of_mem _ hf))
    unfold ftOkFor at hft
    cases hl : pyLookup fl ft.haystack with
    | none =>
      simpa [collectInv, specCollect, List.filterMap_cons, hl] using hrest
    | some v =>
      rw [hl] at hft
      have hgood : goodLit (pyStr v) = true ∧ goodLit ft.needle = true := by
        simpa [Bool.and_eq_true] using hft
      simp [collectInv, specCollect, List.filterMap_cons, hl, pyEvalTest,
        hgood.1, hgood.2, hrest]

/-- The host loop of `inventory_filter`, under the same evaluability
hypotheses, retains exactly the hosts whose collected boolean list is
non-empty and all true. -/
theorem invLoop_spec (fts : List FilterTest) :
    ∀ inv : List (List (Str × Value)),
      (∀ host ∈ inv, invHostOk fts host = true) →
      invLoop (fts.map some) inv = .ok (inv.filter (invKeep fts)) := by
  intro inv
  induction inv with
  | nil => intro _; rfl
  | cons host rest ih =>
    intro hall
    have hh := hall host (List.mem_cons_self _ _)
    have hr := ih (fun x hx => hall x (List.mem_cons_of_mem _ hx))
    unfold invHostOk at hh
    cases hfl : flatten_dict host [] ['.'] with
    | error e => rw [hfl] at hh; simp at hh
    | ok fl =>
      rw [hfl] at hh
      have hcoll := collectInv_spec fl fts (fun ft hft => List.all_eq_true.mp hh ft hft)
      simp only [invLoop, hfl, hcoll, hr, List.filter_cons]
      have hkeep : invKeep fts host =
          (!(specCollect fts fl).isEmpty && (specCollect fts fl).all fun b => b) := by
        unfold invKeep
        rw [hfl]
      by_cases hk : (!(specCollect fts fl).isEmpty && (specCollect fts fl).all fun b => b) = true
      · rw [if_pos hk, hkeep, if_pos hk]
      · rw [if_neg hk, hkeep, if_neg hk]

/-- C4 counterexample: a record whose nested list holds two dicts makes
`flatten_dict` raise `IndexError`, so `inventory_filter` raises instead
of retaining the record — even though the record satisfies the filter
(`x` equals `1`): no sequence of retained records is returned at all. -/
theorem c4_counterexample :
    inventory_filter
      [[(("x").toList, Value.str (("1").toList)),
        (("a").toList, Value.list [Value.int 1, Value.dict [(("b").toList, Value.int 1)],
          Value.dict [(("c").toList, Value.int 2)]])]]
      (("x=1").toList) = .error .indexError := rfl

/-- C4 (amended): whenever the filter string parses to a non-empty
predicate list, every record flattens successfully and every applicable
predicate is evaluable, `inventory_filter` returns exactly the records
whose collected boolean list (one boolean per predicate whose key is
present in the flattened record) is non-empty and all true; records
containing none of the filter's keys are dropped, and absent-key
predicates are skipped without raising. -/
theorem c4_inventory_presence (inventory : List (List (Str × Value))) (fstr : Str)
    (fts : List FilterTest) (hp : parsedPredicates fstr = some fts) (_hne : fts ≠ [])
    (hok : ∀ host ∈ inventory, invHostOk fts host = true) :
    inventory_filter inventory fstr = .ok (inventory.filter (invKeep fts)) := by
  unfold parsedPredicates at hp
  cases hcf : classify_filter fstr with
  | error e => rw [hcf] at hp; simp at hp
  | ok cr =>
    rw [hcf] at hp
    have hn := seqOptions_eq _ _ hp
    unfold inventory_filter
    rw [hcf]
    show invLoop (normalizeFilter cr) inventory = _
    rw [hn]
    exact invLoop_spec fts inventory hok

/-- C4 witness: the spec's own example — records `{"name": "x"}` and
`{"other": "y"}` with filter `"name=x"` retain exactly the first
record. -/
theorem c4_witness :
    inventory_filter
      [[(("name").toList, Value.str (("x").toList))],
       [(("other").toList, Value.str (("y").toList))]]
      (("name=x").toList) = .ok [[(("name").toList, Value.str (("x").toList))]] :=
  (c4_inventory_presence
    [[(("name").toList, Value.str (("x").toList))],
     [(("other").toList, Value.str (("y").toList))]]
    (("name=x").toList)
    [⟨("name").toList, ("x").toList, .equals⟩]
    (by rfl) (by simp) (by decide)).trans (by rfl)

/-- A successful clause comprehension yields one entry per clause. -/
theorem mapClassify_length :
    ∀ (l : List Str) (r : List (Option FilterTest)),
      mapClassify l = .ok r → r.length = l.length := by
  intro l
  induction l with
  | nil =>
    intro r h
    simp only [mapClassify, Except.ok.injEq] at h
    rw [← h]
    rfl
  | cons s rest ih =>
    intro r h
    simp only [mapClassify] at h
    cases hc : classifyClause s with
    | error e => rw [hc] at h; simp at h
    | ok o =>
      rw [hc] at h
      cases hm : mapClassify rest with
      | error e => rw [hm] at h; simp at h
      | ok l2 =>
        rw [hm] at h
        simp only [Except.ok.injEq] at h
        rw [← h]
        simp [ih l2 hm]

/-- C8 (amended): a comma-containing filter string is split on commas and
each clause parsed independently, yielding one entry per clause (a
predicate for a recognized clause, a `None` entry otherwise); for
`"a=1,b=2"` two predicates result, and a value satisfying only the first
is excluded by `results_filter`. -/
theorem c8_comma_and :
    (∀ (s : Str) (l : List (Option FilterTest)), strContains s [','] = true →
      mapClassify (pySplit [','] s) = .ok l →
      classify_filter s = .ok (.multi l) ∧ l.length = (pySplit [','] s).length) ∧
    classify_filter (("a=1,b=2").toList) =
      .ok (.multi [some ⟨("a").toList, ("1").toList, .equals⟩,
                   some ⟨("b").toList, ("2").toList, .equals⟩]) ∧
    results_filter [Value.str (("1").toList)] (("a=1,b=2").toList) = .ok [] := by
  refine ⟨?_, rfl, rfl⟩
  intro s l hc hm
  refine ⟨?_, mapClassify_length _ _ hm⟩
  simp only [classify_filter]
  rw [if_pos hc, hm]

/-- C8 witness: the general comma-splitting property instantiated at the
concrete filter string `"a=1,b=2"`. -/
theorem c8_witness :
    classify_filter (("a=1,b=2").toList) =
      .ok (.multi [some ⟨("a").toList, ("1").toList, .equals⟩,
                   some ⟨("b").toList, ("2").toList, .equals⟩]) ∧
    [some (⟨("a").toList, ("1").toList, .equals⟩ : FilterTest),
     some ⟨("b").toList, ("2").toList, .equals⟩].length =
      (pySplit [','] (("a=1,b=2").toList)).length :=
  c8_comma_and.1 (("a=1,b=2").toList)
    [some ⟨("a").toList, ("1").toList, .equals⟩, some ⟨("b").toList, ("2").toList, .equals⟩]
    (by rfl) (by rfl)

/-- C8 counterexample: `"a=1,zzz"` contains a comma but does not produce
one predicate per clause — the unrecognized clause `zzz` contributes a
`None` entry, and `results_filter` then raises `AttributeError` instead
of filtering. -/
theorem c8_counterexample :
    classify_filter (("a=1,zzz").toList) =
      .ok (.multi [some ⟨("a").toList, ("1").toList, .equals⟩, none]) ∧
    results_filter [Value.str (("1").toList)] (("a=1,zzz").toList) = .error .attributeError :=
  ⟨rfl, rfl⟩

/-- C2: the deletion loop of `flatten_dict` deletes collected indices in
increasing order, so after the first deletion later indices shift — with
`{"a": [{"b": 1}, {"c": 2}, 3]}` the second dict survives inside the list
while the scalar `3` is deleted, and with `{"a": [1, {"b": 1},
{"c": 2}]}` the shifted second index falls off the end and the call
raises `IndexError`. -/
theorem c2_flatten_misdeletes :
    flatten_dict [(("a").toList, Value.list [Value.dict [(("b").toList, Value.int 1)],
        Value.dict [(("c").toList, Value.int 2)], Value.int 3])] [] ['.']
      = .ok [(("a.b").toList, Value.int 1), (("a.c").toList, Value.int 2),
             (("a").toList, Value.list [Value.dict [(("c").toList, Value.int 2)]])] ∧
    flatten_dict [(("a").toList, Value.list [Value.int 1, Value.dict [(("b").toList, Value.int 1)],
        Value.dict [(("c").toList, Value.int 2)]])] [] ['.']
      = .error .indexError := ⟨rfl, rfl⟩

/-- C5: flattening `{"a": [1, {"b": 2}]}` with separator `"."` yields
exactly the mapping with `"a"` bound to `[1]` (the nested dict removed
from its slot, the scalar kept) and `"a.b"` bound to `2` (the nested
dict's field promoted under the composite key). -/
theorem c5_flatten_seq_example :
    flatten_dict [(("a").toList, Value.list [Value.int 1, Value.dict [(("b").toList, Value.int 2)]])] [] ['.']
      = .ok [(("a.b").toList, Value.int 2), (("a").toList, Value.list [Value.int 1])] ∧
    pyLookup [(("a.b").toList, Value.int 2), (("a").toList, Value.list [Value.int 1])]
      (("a").toList) = some (Value.list [Value.int 1]) ∧
    pyLookup [(("a.b").toList, Value.int 2), (("a").toList, Value.list [Value.int 1])]
      (("a.b").toList) = some (Value.int 2) :=
  ⟨rfl, rfl, rfl⟩

/-- C7: evaluating a predicate against the scalar string value `it's`
(which contains a quote character) makes the `eval` of the formatted
comparison raise `SyntaxError` — `results_filter` raises rather than
casting safely. -/
theorem c7_eval_injection :
    results_filter [Value.str ['i', 't', sqChar, 's']] (("<t").toList) = .error .syntaxError := rfl


/-- Heap extension is reflexive. -/
theorem heapExtends_refl (h : Heap) : heapExtends h h := ⟨le_refl _, fun _ _ => rfl⟩

/-- Heap extension is transitive. -/
theorem heapExtends_trans {h1 h2 h3 : Heap}
    (a : heapExtends h1 h2) (b : heapExtends h2 h3) : heapExtends h1 h3 :=
  ⟨le_trans a.1 b.1, fun i hi => (b.2 i (lt_of_lt_of_le hi a.1)).trans (a.2 i hi)⟩

/-- Allocating a fresh cell at the end of the heap preserves every
existing cell. -/
theorem heapExtends_alloc (h : Heap) (c : List HValue) : heapExtends h (h ++ [c]) :=
  ⟨by simp, fun a ha => List.getElem?_append_left ha⟩

/-- An in-place deletion touches only the cell it targets. -/
theorem delAtH_frame (h : Heap) (a i : Nat) :
    (delAtH h a i).2.length = h.length ∧ ∀ n, n ≠ a → (delAtH h a i).2[n]? = h[n]? := by
  unfold delAtH
  by_cases hi : i < (readH h a).length
  · rw [if_pos hi]
    refine ⟨by simp [writeH], fun n hn => ?_⟩
    simp only [writeH]
    exact List.getElem?_set_ne (Ne.symm hn)
  · rw [if_neg hi]
    exact ⟨rfl, fun _ _ => rfl⟩

/-- The deletion loop touches only the cell it targets. -/
theorem delMultiH_frame (a : Nat) :
    ∀ (rem : List Nat) (h : Heap),
      (delMultiH h a rem).2.length = h.length ∧
      ∀ n, n ≠ a → (delMultiH h a rem).2[n]? = h[n]? := by
  intro rem
  induction rem with
  | nil => intro h; exact ⟨rfl, fun _ _ => rfl⟩
  | cons i rest ih =>
    intro h
    obtain ⟨hl, hg⟩ := delAtH_frame h a i
    simp only [delMultiH]
    cases hd : delAtH h a i with
    | mk r h1 =>
      rw [hd] at hl hg
      cases r with
      | error e => exact ⟨hl, hg⟩
      | ok u =>
        obtain ⟨hl2, hg2⟩ := ih h1
        exact ⟨hl2.trans hl, fun n hn => (hg2 n hn).trans (hg n hn)⟩

/-- Deleting inside a cell that did not exist in `h` leaves `h`'s cells
intact. -/
theorem heapExtends_del {h h2 : Heap} (caddr : Nat) (rem : List Nat)
    (hext : heapExtends h h2) (hc : h.length ≤ caddr) :
    heapExtends h (delMultiH h2 caddr rem).2 := by
  obtain ⟨hl, hg⟩ := hext
  obtain ⟨dl, dg⟩ := delMultiH_frame caddr rem h2
  refine ⟨by rw [dl]; exact hl, fun a ha => ?_⟩
  have hne : a ≠ caddr := by omega
  exact (dg a hne).trans (hg a ha)

/-- Frame property of the fuelled heap-model flattening functions: every
call returns a heap extending its input heap — all pre-existing list
objects are untouched, at every fuel and on every path (success, raised
exception, or fuel exhaustion). -/
theorem flatH_frame :
    ∀ fuel : Nat,
      (∀ h v nk sep, heapExtends h (flatHVal fuel h v nk sep).2) ∧
      (∀ h l pk sep, heapExtends h (flatHPairs fuel h l pk sep).2) ∧
      (∀ h v nk sep, heapExtends h (flatHElem fuel h v nk sep).2) ∧
      (∀ h xs i nk sep, heapExtends h (flatHSeq fuel h xs i nk sep).2) := by
  intro fuel
  induction fuel with
  | zero =>
    exact ⟨fun h _ _ _ => heapExtends_refl h, fun h _ _ _ => heapExtends_refl h,
      fun h _ _ _ => heapExtends_refl h, fun h _ _ _ _ => heapExtends_refl h⟩
  | succ n ih =>
    obtain ⟨ihV, ihP, ihE, ihS⟩ := ih
    refine ⟨?_, ?_, ?_, ?_⟩
    · intro h v nk sep
      cases v with
      | int m => exact heapExtends_refl h
      | str s => exact heapExtends_refl h
      | dict kvs =>
        have hext := ihP h kvs nk sep
        simp only [flatHVal]
        split
        next h1 heq => rw [heq] at hext; exact hext
        next e h1 heq => rw [heq] at hext; exact hext
        next sub h1 heq => rw [heq] at hext; exact hext
      | list addr =>
        have hal : heapExtends h (h ++ [readH h addr]) := heapExtends_alloc h _
        have hs := ihS (h ++ [readH h addr]) (readH h addr) 0 nk sep
        simp only [flatHVal]
        split
        next h2 heq => rw [heq] at hs; exact heapExtends_trans hal hs
        next e h2 heq => rw [heq] at hs; exact heapExtends_trans hal hs
        next subFlat toRemove h2 heq =>
          rw [heq] at hs
          have hh2 : heapExtends h h2 := heapExtends_trans hal hs
          have hdel := heapExtends_del h.length toRemove hh2 (le_refl h.length)
          split
          next e h3 heq2 => rw [heq2] at hdel; exact hdel
          next u h3 heq2 => rw [heq2] at hdel; exact hdel
    · intro h l pk sep
      cases l with
      | nil => exact heapExtends_refl h
      | cons kv rest =>
        obtain ⟨key, v⟩ := kv
        have h1e := ihV h v (newKey pk sep key) sep
        simp only [flatHPairs]
        split
        next h1 heq => rw [heq] at h1e; exact h1e
        next e h1 heq => rw [heq] at h1e; exact h1e
        next contrib h1 heq =>
          rw [heq] at h1e
          have h2e := ihP h1 rest pk sep
          split
          next h2 heq2 => rw [heq2] at h2e; exact heapExtends_trans h1e h2e
          next e h2 heq2 => rw [heq2] at h2e; exact heapExtends_trans h1e h2e
          next tail h2 heq2 => rw [heq2] at h2e; exact heapExtends_trans h1e h2e
    · intro h v nk sep
      cases v with
      | int m => exact heapExtends_refl h
      | str s => exact heapExtends_refl h
      | list addr => exact heapExtends_refl h
      | dict kvs =>
        have hext := ihP h kvs nk sep
        simp only [flatHElem]
        split
        next h1 heq => rw [heq] at hext; exact hext
        next e h1 heq => rw [heq] at hext; exact hext
        next sub h1 heq => rw [heq] at hext; exact hext
    · intro h xs i nk sep
      cases xs with
      | nil => exact heapExtends_refl h
      | cons val rest =>
        have h1e := ihE h val nk sep
        simp only [flatHSeq]
        split
        next h1 heq => rw [heq] at h1e; exact h1e
        next e h1 heq => rw [heq] at h1e; exact h1e
        next h1 heq =>
          rw [heq] at h1e
          exact heapExtends_trans h1e (ihS h1 rest (i + 1) nk sep)
        next sub h1 heq =>
          rw [heq] at h1e
          have h2e := ihS h1 rest (i + 1) nk sep
          split
          next h2 heq2 => rw [heq2] at h2e; exact heapExtends_trans h1e h2e
          next e h2 heq2 => rw [heq2] at h2e; exact heapExtends_trans h1e h2e
          next restFlat restIdx h2 heq2 => rw [heq2] at h2e; exact heapExtends_trans h1e h2e

/-- C9: `flatten_dict` never mutates its input — in the heap model, the
call leaves every pre-existing list object exactly as it was, for every
fuel, heap, record and separator, because each sequence is copied to a
fresh cell before any deletion.  (Dicts are immutable in the model since
the source contains no dict-mutating statement.) -/
theorem c9_flatten_no_mutation (fuel : Nat) (h : Heap) (nested_dict : List (Str × HValue))
    (parent_key separator : Str) :
    heapExtends h (flatten_dictH fuel h nested_dict parent_key separator).2 := by
  have hext := (flatH_frame fuel).2.1 h nested_dict parent_key separator
  unfold flatten_dictH
  cases hp : flatHPairs fuel h nested_dict parent_key separator with
  | mk r h1 =>
    rw [hp] at hext
    cases r with
    | none => exact hext
    | some ex =>
      cases ex with
      | error e => exact hext
      | ok fl => exact hext

/-- C9 witness: a concrete one-cell heap whose record holds a list with a
nested dict — after flattening, the original cell is unchanged. -/
theorem c9_witness :
    (flatten_dictH 5 [[HValue.int 1, HValue.dict [(("b").toList, HValue.int 2)]]]
      [(("a").toList, HValue.list 0)] [] ['.']).2[0]?
      = some [HValue.int 1, HValue.dict [(("b").toList, HValue.int 2)]] := by
  have hfr := c9_flatten_no_mutation 5 [[HValue.int 1, HValue.dict [(("b").toList, HValue.int 2)]]]
    [(("a").toList, HValue.list 0)] [] ['.']
  rw [hfr.2 0 (by decide)]
  rfl

end Broker
